import Mathlib

/-
Shallow embedding of scripts/depth_parallax.py (depth-based parallax video
generator) and verification of the spec's claims about it.

Floating-point arithmetic in the script is modelled over ℝ; Python's
int(x) truncation, // floor division and numpy reductions are modelled
explicitly.  Machine integers in this script never overflow (all sizes are
small), so ℤ/ℕ are used directly.
-/

namespace DepthParallax

/-- Python `int(x)` applied to a float: truncation toward zero. -/
noncomputable def pyInt (x : ℝ) : ℤ := if 0 ≤ x then ⌊x⌋ else ⌈x⌉

/-- The `direction` option; anything other than left/right/up/down falls into
the final `else` branch of the source (no pan). -/
inductive Direction
  | left
  | right
  | up
  | down
  | nopan
deriving DecidableEq

/-- The `zoom` option: "none", "in", "out". -/
inductive Zoom
  | znone
  | zin
  | zout
deriving DecidableEq

/-- The `intensity` option. -/
inductive Intensity
  | subtle
  | normal
  | dramatic
deriving DecidableEq

/-- `intensity_mult = {"subtle": 0.5, "normal": 1.0, "dramatic": 1.5}.get(intensity, 1.0)` -/
def intensity_mult : Intensity → ℝ
  | .subtle => 0.5
  | .normal => 1.0
  | .dramatic => 1.5

/-- `bg_speed = 15 * intensity_mult` -/
def bg_speed (it : Intensity) : ℝ := 15 * intensity_mult it

/-- `fg_speed = 40 * intensity_mult` -/
def fg_speed (it : Intensity) : ℝ := 40 * intensity_mult it

/-- Direction vector x component. -/
def dirDx : Direction → ℤ
  | .left => -1
  | .right => 1
  | .up => 0
  | .down => 0
  | .nopan => 0

/-- Direction vector y component. -/
def dirDy : Direction → ℤ
  | .left => 0
  | .right => 0
  | .up => -1
  | .down => 1
  | .nopan => 0

/-- `zoom_amount = 0.15 * intensity_mult` -/
def zoom_amount (it : Intensity) : ℝ := 0.15 * intensity_mult it

/-- `zoom_start` per the if/elif/else on the zoom option. -/
def zoom_start (z : Zoom) (it : Intensity) : ℝ :=
  match z with
  | .zin => 1.0
  | .zout => 1.0 + zoom_amount it
  | .znone => 1.0

/-- `zoom_end` per the if/elif/else on the zoom option. -/
def zoom_end (z : Zoom) (it : Intensity) : ℝ :=
  match z with
  | .zin => 1.0 + zoom_amount it
  | .zout => 1.0
  | .znone => 1.0

/-- `ease_in_out_sine(t) = (1 - cos(t * pi)) / 2` -/
noncomputable def ease_in_out_sine (t : ℝ) : ℝ := (1 - Real.cos (t * Real.pi)) / 2

/-- `total_frames = int(duration * fps)` -/
noncomputable def total_frames (duration : ℝ) (fps : ℤ) : ℤ := pyInt (duration * fps)

/-- `t = frame_idx / max(total_frames - 1, 1)` (Python true division of ints). -/
noncomputable def progress (N i : ℕ) : ℝ := (i : ℝ) / ((max ((N : ℤ) - 1) 1 : ℤ) : ℝ)

/-- `eased_t = ease_in_out_sine(t)` -/
noncomputable def eased (N i : ℕ) : ℝ := ease_in_out_sine (progress N i)

/-- `current_zoom = zoom_start + (zoom_end - zoom_start) * eased_t` -/
noncomputable def current_zoom (z : Zoom) (it : Intensity) (N i : ℕ) : ℝ :=
  zoom_start z it + (zoom_end z it - zoom_start z it) * eased N i

/-- `bg_offset_x = int(dx * bg_speed * eased_t)` -/
noncomputable def bg_offset_x (d : Direction) (it : Intensity) (N i : ℕ) : ℤ :=
  pyInt ((dirDx d : ℝ) * bg_speed it * eased N i)

/-- `bg_offset_y = int(dy * bg_speed * eased_t)` -/
noncomputable def bg_offset_y (d : Direction) (it : Intensity) (N i : ℕ) : ℤ :=
  pyInt ((dirDy d : ℝ) * bg_speed it * eased N i)

/-- `fg_offset_x = int(dx * fg_speed * eased_t)` -/
noncomputable def fg_offset_x (d : Direction) (it : Intensity) (N i : ℕ) : ℤ :=
  pyInt ((dirDx d : ℝ) * fg_speed it * eased N i)

/-- `fg_offset_y = int(dy * fg_speed * eased_t)` -/
noncomputable def fg_offset_y (d : Direction) (it : Intensity) (N i : ℕ) : ℤ :=
  pyInt ((dirDy d : ℝ) * fg_speed it * eased N i)

/- ---------------------------------------------------------------- -/
/- Basic facts about pyInt, progress and the easing curve.           -/
/- ---------------------------------------------------------------- -/

theorem pyInt_of_nonneg {x : ℝ} (h : 0 ≤ x) : pyInt x = ⌊x⌋ := by
  simp [pyInt, h]

theorem pyInt_of_nonpos {x : ℝ} (h : x ≤ 0) : pyInt x = -⌊-x⌋ := by
  rcases eq_or_lt_of_le h with rfl | hlt
  · simp [pyInt]
  · have hx : ¬ (0 ≤ x) := not_le.mpr hlt
    have h1 : pyInt x = ⌈x⌉ := by simp [pyInt, hx]
    have h2 : ⌈x⌉ = -⌊-x⌋ := by
      conv_lhs => rw [show x = -(-x) by ring]
      rw [Int.ceil_neg]
    rw [h1, h2]

theorem pyInt_intCast (n : ℤ) : pyInt (n : ℝ) = n := by
  rcases le_or_lt 0 (n : ℝ) with h | h
  · rw [pyInt_of_nonneg h, Int.floor_intCast]
  · rw [pyInt_of_nonpos h.le]
    rw [show (-(n : ℝ)) = ((-n : ℤ) : ℝ) by push_cast; ring, Int.floor_intCast]
    ring

theorem abs_pyInt_le (x : ℝ) : |((pyInt x : ℤ) : ℝ)| ≤ |x| := by
  rcases le_or_lt 0 x with h | h
  · rw [pyInt_of_nonneg h, abs_of_nonneg h,
      abs_of_nonneg (by exact_mod_cast Int.floor_nonneg.mpr h)]
    exact Int.floor_le x
  · rw [pyInt_of_nonpos h.le, abs_of_neg h]
    have h1 : (0 : ℝ) ≤ -x := by linarith
    have h2 : ((⌊-x⌋ : ℤ) : ℝ) ≤ -x := Int.floor_le _
    have h3 : (0 : ℤ) ≤ ⌊-x⌋ := Int.floor_nonneg.mpr h1
    rw [abs_of_nonpos (by push_cast; exact_mod_cast neg_nonpos.mpr (by exact_mod_cast h3))]
    push_cast
    linarith

theorem progress_nonneg (N i : ℕ) : 0 ≤ progress N i := by
  have h1 : (1 : ℤ) ≤ max ((N : ℤ) - 1) 1 := le_max_right _ _
  have : (0 : ℝ) < ((max ((N : ℤ) - 1) 1 : ℤ) : ℝ) := by exact_mod_cast lt_of_lt_of_le zero_lt_one h1
  exact div_nonneg (by positivity) this.le

theorem progress_le_one {N i : ℕ} (h : i < N) : progress N i ≤ 1 := by
  have h1 : (1 : ℤ) ≤ max ((N : ℤ) - 1) 1 := le_max_right _ _
  have hpos : (0 : ℝ) < ((max ((N : ℤ) - 1) 1 : ℤ) : ℝ) := by
    exact_mod_cast lt_of_lt_of_le zero_lt_one h1
  rw [progress, div_le_one hpos]
  have hi : (i : ℤ) ≤ max ((N : ℤ) - 1) 1 := by
    rcases le_or_lt (i : ℤ) ((N : ℤ) - 1) with h' | h'
    · exact le_max_of_le_left h'
    · exact le_max_of_le_right (by omega)
  exact_mod_cast hi

theorem eased_nonneg (N i : ℕ) : 0 ≤ eased N i := by
  have := Real.cos_le_one (progress N i * Real.pi)
  simp only [eased, ease_in_out_sine]
  linarith

theorem eased_le_one (N i : ℕ) : eased N i ≤ 1 := by
  have := Real.neg_one_le_cos (progress N i * Real.pi)
  simp only [eased, ease_in_out_sine]
  linarith

theorem eased_zero (N : ℕ) : eased N 0 = 0 := by
  simp [eased, progress, ease_in_out_sine, Real.cos_zero]

theorem progress_last {N : ℕ} (h : 2 ≤ N) : progress N (N - 1) = 1 := by
  have hmax : max ((N : ℤ) - 1) 1 = (N : ℤ) - 1 := max_eq_left (by omega)
  have hcast : ((N - 1 : ℕ) : ℝ) = (N : ℝ) - 1 := by
    have : ((N - 1 : ℕ) : ℤ) = (N : ℤ) - 1 := by omega
    exact_mod_cast congrArg (fun z : ℤ => (z : ℝ)) this
  have hne : (N : ℝ) - 1 ≠ 0 := by
    have : (2 : ℝ) ≤ (N : ℝ) := by exact_mod_cast h
    linarith
  rw [progress, hmax, hcast]
  push_cast
  field_simp

theorem eased_last {N : ℕ} (h : 2 ≤ N) : eased N (N - 1) = 1 := by
  rw [eased, progress_last h, ease_in_out_sine, one_mul, Real.cos_pi]
  norm_num

theorem progress_strictMono {N i j : ℕ} (hij : i < j) : progress N i < progress N j := by
  have h1 : (1 : ℤ) ≤ max ((N : ℤ) - 1) 1 := le_max_right _ _
  have hpos : (0 : ℝ) < ((max ((N : ℤ) - 1) 1 : ℤ) : ℝ) := by
    exact_mod_cast lt_of_lt_of_le zero_lt_one h1
  have : (i : ℝ) < (j : ℝ) := by exact_mod_cast hij
  exact div_lt_div_of_pos_right this hpos

theorem eased_strictMono {N i j : ℕ} (hij : i < j) (hj : j < N) :
    eased N i < eased N j := by
  have ht1 : 0 ≤ progress N i := progress_nonneg N i
  have ht2 : progress N j ≤ 1 := progress_le_one hj
  have htij : progress N i < progress N j := progress_strictMono hij
  have hc : Real.cos (progress N j * Real.pi) < Real.cos (progress N i * Real.pi) := by
    apply Real.cos_lt_cos_of_nonneg_of_le_pi
    · positivity
    · calc progress N j * Real.pi ≤ 1 * Real.pi := by
            exact mul_le_mul_of_nonneg_right ht2 Real.pi_pos.le
        _ = Real.pi := one_mul _
    · exact mul_lt_mul_of_pos_right htij Real.pi_pos
  simp only [eased, ease_in_out_sine]
  linarith

theorem eased_mono {N i j : ℕ} (hij : i ≤ j) (hj : j < N) :
    eased N i ≤ eased N j := by
  rcases eq_or_lt_of_le hij with rfl | hlt
  · exact le_rfl
  · exact (eased_strictMono hlt hj).le

theorem intensity_mult_pos (it : Intensity) : 0 < intensity_mult it := by
  cases it <;> norm_num [intensity_mult]

theorem bg_speed_nonneg (it : Intensity) : 0 ≤ bg_speed it := by
  have := intensity_mult_pos it
  simp only [bg_speed]
  positivity

theorem fg_speed_nonneg (it : Intensity) : 0 ≤ fg_speed it := by
  have := intensity_mult_pos it
  simp only [fg_speed]
  positivity

theorem zoom_amount_nonneg (it : Intensity) : 0 ≤ zoom_amount it := by
  have := intensity_mult_pos it
  simp only [zoom_amount]
  positivity

theorem abs_dirDx_le (d : Direction) : |((dirDx d : ℤ) : ℝ)| ≤ 1 := by
  cases d <;> norm_num [dirDx]

theorem abs_dirDy_le (d : Direction) : |((dirDy d : ℤ) : ℝ)| ≤ 1 := by
  cases d <;> norm_num [dirDy]

/-- Magnitude of a truncated product is monotone in a nonnegative factor,
whatever the sign of the other factor. -/
theorem abs_pyInt_mul_mono (a : ℝ) {e1 e2 : ℝ} (h1 : 0 ≤ e1) (h12 : e1 ≤ e2) :
    |pyInt (a * e1)| ≤ |pyInt (a * e2)| := by
  have h2 : 0 ≤ e2 := le_trans h1 h12
  rcases le_or_lt 0 a with ha | ha
  · have p1 : 0 ≤ a * e1 := mul_nonneg ha h1
    have p2 : 0 ≤ a * e2 := mul_nonneg ha h2
    rw [pyInt_of_nonneg p1, pyInt_of_nonneg p2,
      abs_of_nonneg (Int.floor_nonneg.mpr p1), abs_of_nonneg (Int.floor_nonneg.mpr p2)]
    exact Int.floor_le_floor (mul_le_mul_of_nonneg_left h12 ha)
  · have p1 : a * e1 ≤ 0 := mul_nonpos_of_nonpos_of_nonneg ha.le h1
    have p2 : a * e2 ≤ 0 := mul_nonpos_of_nonpos_of_nonneg ha.le h2
    rw [pyInt_of_nonpos p1, pyInt_of_nonpos p2, abs_neg, abs_neg,
      abs_of_nonneg (Int.floor_nonneg.mpr (by linarith)),
      abs_of_nonneg (Int.floor_nonneg.mpr (by linarith))]
    exact Int.floor_le_floor (by nlinarith)

/-- `pad_x = int(max(fg_speed, bg_speed) * 3)` -/
noncomputable def pad_x (it : Intensity) : ℤ := pyInt (max (fg_speed it) (bg_speed it) * 3)

/-- `pad_y = int(max(fg_speed, bg_speed) * 3)` -/
noncomputable def pad_y (it : Intensity) : ℤ := pyInt (max (fg_speed it) (bg_speed it) * 3)

/-- `bg_scale = 1.1` -/
def bg_scale : ℝ := 1.1

/-- Width after `cv2.copyMakeBorder(..., left=pad_x, right=pad_x, ...)`. -/
noncomputable def padded_w (w : ℕ) (it : Intensity) : ℤ := (w : ℤ) + 2 * pad_x it

/-- Height after `cv2.copyMakeBorder(..., top=pad_y, bottom=pad_y, ...)`. -/
noncomputable def padded_h (h : ℕ) (it : Intensity) : ℤ := (h : ℤ) + 2 * pad_y it

/-- `bg_scaled_w = int(padded_w * bg_scale)` -/
noncomputable def bg_scaled_w (w : ℕ) (it : Intensity) : ℤ :=
  pyInt ((padded_w w it : ℝ) * bg_scale)

/-- `bg_scaled_h = int(padded_h * bg_scale)` -/
noncomputable def bg_scaled_h (h : ℕ) (it : Intensity) : ℤ :=
  pyInt ((padded_h h it : ℝ) * bg_scale)

/-- `bg_center_offset_x = (bg_scaled_w - width) // 2` (ℤ division is floor
division for the positive divisor 2, as in Python). -/
noncomputable def bg_center_offset_x (w : ℕ) (it : Intensity) : ℤ :=
  (bg_scaled_w w it - w) / 2

/-- `bg_center_offset_y = (bg_scaled_h - height) // 2` -/
noncomputable def bg_center_offset_y (h : ℕ) (it : Intensity) : ℤ :=
  (bg_scaled_h h it - h) / 2

/-- `crop_x = bg_center_offset_x - bg_offset_x` (before the defensive clamp). -/
noncomputable def crop_x_raw (w : ℕ) (d : Direction) (it : Intensity) (N i : ℕ) : ℤ :=
  bg_center_offset_x w it - bg_offset_x d it N i

/-- `crop_y = bg_center_offset_y - bg_offset_y` (before the defensive clamp). -/
noncomputable def crop_y_raw (h : ℕ) (d : Direction) (it : Intensity) (N i : ℕ) : ℤ :=
  bg_center_offset_y h it - bg_offset_y d it N i

/-- `crop_x = max(0, min(crop_x, bg_scaled_w - width))` (the defensive clamp). -/
noncomputable def crop_x (w : ℕ) (d : Direction) (it : Intensity) (N i : ℕ) : ℤ :=
  max 0 (min (crop_x_raw w d it N i) (bg_scaled_w w it - w))

/-- `crop_y = max(0, min(crop_y, bg_scaled_h - height))` (the defensive clamp). -/
noncomputable def crop_y (h : ℕ) (d : Direction) (it : Intensity) (N i : ℕ) : ℤ :=
  max 0 (min (crop_y_raw h d it N i) (bg_scaled_h h it - h))

/-- Even output dimension: `width = orig_width - (orig_width % 2)`. -/
def evenDim (n : ℕ) : ℕ := n - n % 2

/-- `zoomed_w = int(width * current_zoom)` -/
noncomputable def zoomed_w (w : ℕ) (cz : ℝ) : ℤ := pyInt ((w : ℝ) * cz)

/-- `zoomed_h = int(height * current_zoom)` -/
noncomputable def zoomed_h (h : ℕ) (cz : ℝ) : ℤ := pyInt ((h : ℝ) * cz)

/-- `left = (zoomed_w - width) // 2` (recrop after the zoom rescale). -/
noncomputable def zoom_crop_left (w : ℕ) (cz : ℝ) : ℤ := (zoomed_w w cz - w) / 2

/-- `top = (zoomed_h - height) // 2` (recrop after the zoom rescale). -/
noncomputable def zoom_crop_top (h : ℕ) (cz : ℝ) : ℤ := (zoomed_h h cz - h) / 2

open Classical in
/-- Dimensions of the emitted frame, following the renderer's branches: the
base crop box is (crop_x, crop_y, crop_x+width, crop_y+height); when
`current_zoom != 1.0` the frame is resized to (zoomed_w, zoomed_h) and cropped
back with box (left, top, left+width, top+height). A PIL crop with box
(l, t, r, b) yields an (r-l) × (b-t) image. -/
noncomputable def frameDims (ow oh : ℕ) (z : Zoom) (it : Intensity) (N i : ℕ) : ℤ × ℤ :=
  let w : ℤ := (evenDim ow : ℤ)
  let h : ℤ := (evenDim oh : ℤ)
  let cz := current_zoom z it N i
  if cz = 1.0 then (w, h)
  else
    let L := zoom_crop_left (evenDim ow) cz
    let T := zoom_crop_top (evenDim oh) cz
    (L + w - L, T + h - T)

/-- Outcome of one invocation of `main()`. Because `json.loads(sys.argv[3])`
runs before the try/except block, a decode error there escapes as an uncaught
Python exception: the interpreter prints a traceback to stderr and exits with
code 1, writing nothing to stdout. -/
inductive MainOutcome where
  | usage : MainOutcome
  | uncaught : String → MainOutcome
  | jsonSuccess : String → MainOutcome
  | jsonFailure : String → MainOutcome
deriving DecidableEq

/-- `main()`, with the two external calls abstracted: `jsonLoads` stands for
`json.loads` applied to the third argument and `gen` for
`generate_parallax_video` (receiving the decoded options, or `none` when no
third argument was given, in which case the defaults are used). `argv` is
`sys.argv` including the program name. -/
def mainRun {α : Type} (argv : List String) (jsonLoads : String → Except String α)
    (gen : Option α → Except String String) : MainOutcome :=
  if argv.length < 3 then .usage
  else
    match argv[3]? with
    | some s =>
      match jsonLoads s with
      | .error e => .uncaught e
      | .ok opts =>
        match gen (some opts) with
        | .ok out => .jsonSuccess out
        | .error e => .jsonFailure e
    | none =>
      match gen none with
      | .ok out => .jsonSuccess out
      | .error e => .jsonFailure e

/-- Process exit code: usage error and the except-branch call `sys.exit(1)`,
an uncaught exception makes the interpreter exit with 1, success exits 0. -/
def exitCode : MainOutcome → ℕ
  | .usage => 1
  | .uncaught _ => 1
  | .jsonSuccess _ => 0
  | .jsonFailure _ => 1

/-- The single JSON line printed to stdout by `json.dumps`, if any. -/
def stdoutJsonLine : MainOutcome → Option String
  | .usage => none
  | .uncaught _ => none
  | .jsonSuccess out => some ("\x7b\"success\": true, \"output\": \"" ++ out ++ "\"\x7d")
  | .jsonFailure e => some ("\x7b\"success\": false, \"error\": \"" ++ e ++ "\"\x7d")

/-- A concrete command line whose third argument is not valid JSON. -/
def cliBadJson : List String :=
  ["scripts/depth_parallax.py", "input.png", "output.mp4", "not json"]

/-- json.loads failing on every input with the CPython decode-error message. -/
def cliBadLoads : String → Except String Unit :=
  fun _ => .error "Expecting value: line 1 column 1 (char 0)"

/-- A generate_parallax_video stub that would succeed if it were ever reached. -/
def cliGenOk : Option Unit → Except String String :=
  fun _ => .ok "output.mp4"

/- ---------------------------------------------------------------- -/
/- Claims C2, C6, C8: motion scheduler.                              -/
/- ---------------------------------------------------------------- -/

/-- C2 counterexample: with zoom="out" and intensity="normal" the zoom scale at
frame 0 is zoom_start = 1 + 0.15 = 1.15, not 1.0, so the claim as stated fails
at direction=right, intensity=normal, zoom=out, N=48. -/
theorem C2_counterexample_zoom_out :
    ¬ (current_zoom Zoom.zout Intensity.normal 48 0 = 1.0) := by
  rw [current_zoom, eased_zero]
  norm_num [zoom_start, zoom_end, zoom_amount, intensity_mult]

/-- C2 (amended): at frame index 0 all four pan offsets are 0 and the zoom scale
equals zoom_start, which is 1.0 for zoom ∈ {none, in} but 1 + 0.15·mult for
zoom=out, for every direction/intensity/zoom and every total frame count. -/
theorem C2_amended_rest_position (d : Direction) (it : Intensity) (z : Zoom) (N : ℕ) :
    bg_offset_x d it N 0 = 0 ∧ bg_offset_y d it N 0 = 0 ∧
    fg_offset_x d it N 0 = 0 ∧ fg_offset_y d it N 0 = 0 ∧
    current_zoom z it N 0 = zoom_start z it ∧
    (z ≠ Zoom.zout → current_zoom z it N 0 = 1.0) := by
  have hz : current_zoom z it N 0 = zoom_start z it := by
    rw [current_zoom, eased_zero]
    ring
  refine ⟨?_, ?_, ?_, ?_, hz, ?_⟩
  · rw [bg_offset_x, eased_zero, mul_zero, show ((0:ℝ) = ((0:ℤ):ℝ)) by norm_num,
      pyInt_intCast]
  · rw [bg_offset_y, eased_zero, mul_zero, show ((0:ℝ) = ((0:ℤ):ℝ)) by norm_num,
      pyInt_intCast]
  · rw [fg_offset_x, eased_zero, mul_zero, show ((0:ℝ) = ((0:ℤ):ℝ)) by norm_num,
      pyInt_intCast]
  · rw [fg_offset_y, eased_zero, mul_zero, show ((0:ℝ) = ((0:ℤ):ℝ)) by norm_num,
      pyInt_intCast]
  · intro hne
    rw [hz]
    cases z with
    | znone => rfl
    | zin => rfl
    | zout => exact absurd rfl hne

/-- Witness for C2's amended theorem at direction=right, intensity=normal,
zoom=none, N=48. -/
theorem C2_witness :
    bg_offset_x Direction.right Intensity.normal 48 0 = 0 ∧
    bg_offset_y Direction.right Intensity.normal 48 0 = 0 ∧
    fg_offset_x Direction.right Intensity.normal 48 0 = 0 ∧
    fg_offset_y Direction.right Intensity.normal 48 0 = 0 ∧
    current_zoom Zoom.znone Intensity.normal 48 0 = zoom_start Zoom.znone Intensity.normal ∧
    (Zoom.znone ≠ Zoom.zout → current_zoom Zoom.znone Intensity.normal 48 0 = 1.0) :=
  C2_amended_rest_position Direction.right Intensity.normal Zoom.znone 48

/-- C6 counterexample: with zoom="out" the magnitude |zoom_scale - 1| strictly
decreases from frame 0 to the last frame (N=2, intensity=normal): it is 0.15 at
frame 0 and 0 at frame 1 — not non-decreasing. -/
theorem C6_counterexample_zoom_out :
    |current_zoom Zoom.zout Intensity.normal 2 1 - 1.0| <
      |current_zoom Zoom.zout Intensity.normal 2 0 - 1.0| := by
  have h1 : eased 2 1 = 1 := by
    have := eased_last (N := 2) (by norm_num)
    simpa using this
  rw [current_zoom, current_zoom, eased_zero, h1]
  norm_num [zoom_start, zoom_end, zoom_amount, intensity_mult]

/-- C6 (amended): for fixed direction, intensity and zoom, the magnitudes of all
four pan offset components are non-decreasing in the frame index, tracking the
eased progress e(t), which is non-decreasing; |zoom_scale - 1| is non-decreasing
for zoom ∈ {none, in} but non-increasing for zoom=out (where it tracks
1 - e(t)). -/
theorem C6_amended_monotone (d : Direction) (it : Intensity) (z : Zoom) (N i j : ℕ)
    (hij : i ≤ j) (hj : j < N) :
    |bg_offset_x d it N i| ≤ |bg_offset_x d it N j| ∧
    |bg_offset_y d it N i| ≤ |bg_offset_y d it N j| ∧
    |fg_offset_x d it N i| ≤ |fg_offset_x d it N j| ∧
    |fg_offset_y d it N i| ≤ |fg_offset_y d it N j| ∧
    (z ≠ Zoom.zout → |current_zoom z it N i - 1.0| ≤ |current_zoom z it N j - 1.0|) ∧
    (z = Zoom.zout → |current_zoom z it N j - 1.0| ≤ |current_zoom z it N i - 1.0|) ∧
    eased N i ≤ eased N j := by
  have he1 : 0 ≤ eased N i := eased_nonneg N i
  have hee : eased N i ≤ eased N j := eased_mono hij hj
  have hei1 : eased N i ≤ 1 := eased_le_one N i
  have hej1 : eased N j ≤ 1 := eased_le_one N j
  have hej0 : 0 ≤ eased N j := eased_nonneg N j
  have hA : 0 ≤ zoom_amount it := zoom_amount_nonneg it
  refine ⟨abs_pyInt_mul_mono _ he1 hee, abs_pyInt_mul_mono _ he1 hee,
    abs_pyInt_mul_mono _ he1 hee, abs_pyInt_mul_mono _ he1 hee, ?_, ?_, hee⟩
  · intro hne
    cases z with
    | znone =>
      simp only [current_zoom, zoom_start, zoom_end]
      norm_num
    | zin =>
      simp only [current_zoom, zoom_start, zoom_end]
      have hi : (1.0 : ℝ) + (1.0 + zoom_amount it - 1.0) * eased N i - 1.0 =
          zoom_amount it * eased N i := by ring
      have hjj : (1.0 : ℝ) + (1.0 + zoom_amount it - 1.0) * eased N j - 1.0 =
          zoom_amount it * eased N j := by ring
      rw [hi, hjj, abs_of_nonneg (mul_nonneg hA he1), abs_of_nonneg (mul_nonneg hA hej0)]
      exact mul_le_mul_of_nonneg_left hee hA
    | zout => exact absurd rfl hne
  · intro hzz
    subst hzz
    simp only [current_zoom, zoom_start, zoom_end]
    have hi : (1.0 : ℝ) + zoom_amount it + (1.0 - (1.0 + zoom_amount it)) * eased N i - 1.0 =
        zoom_amount it * (1 - eased N i) := by ring
    have hjj : (1.0 : ℝ) + zoom_amount it + (1.0 - (1.0 + zoom_amount it)) * eased N j - 1.0 =
        zoom_amount it * (1 - eased N j) := by ring
    rw [hi, hjj, abs_of_nonneg (mul_nonneg hA (by linarith)),
      abs_of_nonneg (mul_nonneg hA (by linarith))]
    exact mul_le_mul_of_nonneg_left (by linarith) hA

/-- Witness for C6's amended theorem at direction=right, intensity=normal,
zoom=none, N=2, frames 0 ≤ 1 < 2. -/
theorem C6_witness :
    |bg_offset_x Direction.right Intensity.normal 2 0| ≤
      |bg_offset_x Direction.right Intensity.normal 2 1| ∧
    |bg_offset_y Direction.right Intensity.normal 2 0| ≤
      |bg_offset_y Direction.right Intensity.normal 2 1| ∧
    |fg_offset_x Direction.right Intensity.normal 2 0| ≤
      |fg_offset_x Direction.right Intensity.normal 2 1| ∧
    |fg_offset_y Direction.right Intensity.normal 2 0| ≤
      |fg_offset_y Direction.right Intensity.normal 2 1| ∧
    (Zoom.znone ≠ Zoom.zout →
      |current_zoom Zoom.znone Intensity.normal 2 0 - 1.0| ≤
        |current_zoom Zoom.znone Intensity.normal 2 1 - 1.0|) ∧
    (Zoom.znone = Zoom.zout →
      |current_zoom Zoom.znone Intensity.normal 2 1 - 1.0| ≤
        |current_zoom Zoom.znone Intensity.normal 2 0 - 1.0|) ∧
    eased 2 0 ≤ eased 2 1 :=
  C6_amended_monotone Direction.right Intensity.normal Zoom.znone 2 0 1
    (by norm_num) (by norm_num)

/-- C8: with zoom=in, intensity=dramatic, duration=2.0, fps=24 the pipeline
generates int(2.0·24) = 48 frames; the zoom scale is 1.0 at frame 0, 1.225
(= 1 + 0.15·1.5) at frame 47, and strictly increasing in the frame index. -/
theorem C8_zoom_in_dramatic :
    total_frames 2.0 24 = 48 ∧
    current_zoom Zoom.zin Intensity.dramatic 48 0 = 1.0 ∧
    current_zoom Zoom.zin Intensity.dramatic 48 47 = 1.225 ∧
    (∀ i j : ℕ, i < j → j < 48 →
      current_zoom Zoom.zin Intensity.dramatic 48 i <
        current_zoom Zoom.zin Intensity.dramatic 48 j) := by
  refine ⟨?_, ?_, ?_, ?_⟩
  · rw [total_frames, show ((2.0 : ℝ) * ((24 : ℤ) : ℝ)) = ((48 : ℤ) : ℝ) by norm_num,
      pyInt_intCast]
  · rw [current_zoom, eased_zero]
    norm_num [zoom_start, zoom_end, zoom_amount, intensity_mult]
  · have h47 : eased 48 47 = 1 := by
      have := eased_last (N := 48) (by norm_num)
      simpa using this
    rw [current_zoom, h47]
    norm_num [zoom_start, zoom_end, zoom_amount, intensity_mult]
  · intro i j hij hj
    have he : eased 48 i < eased 48 j := eased_strictMono hij hj
    simp only [current_zoom, zoom_start, zoom_end, zoom_amount, intensity_mult]
    nlinarith

/-- Witness for C8's universally quantified strict-monotonicity part at frames
0 < 47 < 48. -/
theorem C8_witness :
    current_zoom Zoom.zin Intensity.dramatic 48 0 <
      current_zoom Zoom.zin Intensity.dramatic 48 47 :=
  C8_zoom_in_dramatic.2.2.2 0 47 (by norm_num) (by norm_num)

/- ---------------------------------------------------------------- -/
/- Claims C4, C5, C10: canvas and renderer geometry.                 -/
/- ---------------------------------------------------------------- -/

theorem max_speed_eq (it : Intensity) :
    max (fg_speed it) (bg_speed it) = fg_speed it := by
  apply max_eq_left
  have := intensity_mult_pos it
  simp only [fg_speed, bg_speed]
  nlinarith

theorem pad_x_cast (it : Intensity) : ((pad_x it : ℤ) : ℝ) = 120 * intensity_mult it := by
  rw [pad_x, max_speed_eq]
  cases it with
  | subtle =>
    rw [show (fg_speed Intensity.subtle * 3 : ℝ) = ((60 : ℤ) : ℝ) by
      norm_num [fg_speed, intensity_mult], pyInt_intCast]
    norm_num [intensity_mult]
  | normal =>
    rw [show (fg_speed Intensity.normal * 3 : ℝ) = ((120 : ℤ) : ℝ) by
      norm_num [fg_speed, intensity_mult], pyInt_intCast]
    norm_num [intensity_mult]
  | dramatic =>
    rw [show (fg_speed Intensity.dramatic * 3 : ℝ) = ((180 : ℤ) : ℝ) by
      norm_num [fg_speed, intensity_mult], pyInt_intCast]
    norm_num [intensity_mult]

theorem pad_y_eq_pad_x (it : Intensity) : pad_y it = pad_x it := rfl

theorem pad_x_nonneg (it : Intensity) : 0 ≤ pad_x it := by
  have h := pad_x_cast it
  have hm := intensity_mult_pos it
  have : (0 : ℝ) ≤ ((pad_x it : ℤ) : ℝ) := by rw [h]; positivity
  exact_mod_cast this

theorem padded_w_nonneg (w : ℕ) (it : Intensity) : 0 ≤ padded_w w it := by
  have := pad_x_nonneg it
  simp only [padded_w]
  positivity

theorem le_bg_scaled_w (w : ℕ) (it : Intensity) : padded_w w it ≤ bg_scaled_w w it := by
  have h0 : (0 : ℝ) ≤ ((padded_w w it : ℤ) : ℝ) := by
    exact_mod_cast padded_w_nonneg w it
  rw [bg_scaled_w, pyInt_of_nonneg (by rw [bg_scale]; nlinarith)]
  apply Int.le_floor.mpr
  rw [bg_scale]
  nlinarith

theorem le_bg_scaled_h (h : ℕ) (it : Intensity) : padded_h h it ≤ bg_scaled_h h it := by
  have h0 : (0 : ℝ) ≤ ((padded_h h it : ℤ) : ℝ) := by
    have := pad_x_nonneg it
    have : 0 ≤ padded_h h it := by
      simp only [padded_h, pad_y_eq_pad_x]
      positivity
    exact_mod_cast this
  rw [bg_scaled_h, pyInt_of_nonneg (by rw [bg_scale]; nlinarith)]
  apply Int.le_floor.mpr
  rw [bg_scale]
  nlinarith

/-- C4: the canvas is at least as large as the output plus twice the padding
margin 3 × max(fg_speed, bg_speed) in both axes, for every intensity and every
output size. -/
theorem C4_canvas_padding (it : Intensity) (w h : ℕ) :
    (w : ℝ) + 2 * (3 * max (fg_speed it) (bg_speed it)) ≤ ((bg_scaled_w w it : ℤ) : ℝ) ∧
    (h : ℝ) + 2 * (3 * max (fg_speed it) (bg_speed it)) ≤ ((bg_scaled_h h it : ℤ) : ℝ) := by
  have hpad : ((pad_x it : ℤ) : ℝ) = 3 * max (fg_speed it) (bg_speed it) := by
    rw [pad_x_cast, max_speed_eq]
    simp only [fg_speed]
    ring
  constructor
  · have h1 : padded_w w it ≤ bg_scaled_w w it := le_bg_scaled_w w it
    have h2 : ((padded_w w it : ℤ) : ℝ) ≤ ((bg_scaled_w w it : ℤ) : ℝ) := by exact_mod_cast h1
    have h3 : ((padded_w w it : ℤ) : ℝ) = (w : ℝ) + 2 * ((pad_x it : ℤ) : ℝ) := by
      simp only [padded_w]
      push_cast
      ring
    rw [h3, hpad] at h2
    linarith
  · have h1 : padded_h h it ≤ bg_scaled_h h it := le_bg_scaled_h h it
    have h2 : ((padded_h h it : ℤ) : ℝ) ≤ ((bg_scaled_h h it : ℤ) : ℝ) := by exact_mod_cast h1
    have h3 : ((padded_h h it : ℤ) : ℝ) = (h : ℝ) + 2 * ((pad_x it : ℤ) : ℝ) := by
      simp only [padded_h, pad_y_eq_pad_x]
      push_cast
      ring
    rw [h3, hpad] at h2
    linarith

/-- Magnitude bound for a scheduled offset: |int(c · s · eased)| ≤ s. -/
theorem abs_offset_le (c : ℤ) (hc : |((c : ℤ) : ℝ)| ≤ 1) (s : ℝ) (hs : 0 ≤ s) (N i : ℕ) :
    |((pyInt ((c : ℝ) * s * eased N i) : ℤ) : ℝ)| ≤ s := by
  have h := abs_pyInt_le ((c : ℝ) * s * eased N i)
  have he0 := eased_nonneg N i
  have he1 := eased_le_one N i
  have habs : |(c : ℝ) * s * eased N i| = |(c : ℝ)| * s * eased N i := by
    rw [abs_mul, abs_mul, abs_of_nonneg hs, abs_of_nonneg he0]
  rw [habs] at h
  have k1 : 0 ≤ (1 - |((c : ℤ) : ℝ)|) * s * eased N i :=
    mul_nonneg (mul_nonneg (sub_nonneg.mpr hc) hs) he0
  have k2 : 0 ≤ s * (1 - eased N i) := mul_nonneg hs (sub_nonneg.mpr he1)
  nlinarith

theorem abs_bg_offset_x_le_pad (d : Direction) (it : Intensity) (N i : ℕ) :
    |bg_offset_x d it N i| ≤ pad_x it := by
  have h1 : |((bg_offset_x d it N i : ℤ) : ℝ)| ≤ bg_speed it :=
    abs_offset_le (dirDx d) (abs_dirDx_le d) (bg_speed it) (bg_speed_nonneg it) N i
  have hm := intensity_mult_pos it
  have h2 : bg_speed it ≤ ((pad_x it : ℤ) : ℝ) := by
    rw [pad_x_cast]
    simp only [bg_speed]
    nlinarith
  have h3 : |((bg_offset_x d it N i : ℤ) : ℝ)| ≤ ((pad_x it : ℤ) : ℝ) := le_trans h1 h2
  rw [← Int.cast_abs] at h3
  exact_mod_cast h3

theorem abs_bg_offset_y_le_pad (d : Direction) (it : Intensity) (N i : ℕ) :
    |bg_offset_y d it N i| ≤ pad_y it := by
  have h1 : |((bg_offset_y d it N i : ℤ) : ℝ)| ≤ bg_speed it :=
    abs_offset_le (dirDy d) (abs_dirDy_le d) (bg_speed it) (bg_speed_nonneg it) N i
  have hm := intensity_mult_pos it
  have h2 : bg_speed it ≤ ((pad_y it : ℤ) : ℝ) := by
    rw [pad_y_eq_pad_x, pad_x_cast]
    simp only [bg_speed]
    nlinarith
  have h3 : |((bg_offset_y d it N i : ℤ) : ℝ)| ≤ ((pad_y it : ℤ) : ℝ) := le_trans h1 h2
  rw [← Int.cast_abs] at h3
  exact_mod_cast h3

/-- C5: for every frame index, direction and intensity, the raw crop rectangle
(center offset minus background offset, extended by the output size) already
lies within canvas bounds, so the defensive clamp never changes it. -/
theorem C5_crop_clamp_noop (w h : ℕ) (d : Direction) (it : Intensity) (N i : ℕ) :
    0 ≤ crop_x_raw w d it N i ∧
    crop_x_raw w d it N i ≤ bg_scaled_w w it - w ∧
    0 ≤ crop_y_raw h d it N i ∧
    crop_y_raw h d it N i ≤ bg_scaled_h h it - h ∧
    crop_x w d it N i = crop_x_raw w d it N i ∧
    crop_y h d it N i = crop_y_raw h d it N i := by
  have hWx : (w : ℤ) + 2 * pad_x it ≤ bg_scaled_w w it := le_bg_scaled_w w it
  have hWy : (h : ℤ) + 2 * pad_y it ≤ bg_scaled_h h it := by
    have := le_bg_scaled_h h it
    simpa [padded_h] using this
  have hox := abs_le.mp (abs_bg_offset_x_le_pad d it N i)
  have hoy := abs_le.mp (abs_bg_offset_y_le_pad d it N i)
  have hpx := pad_x_nonneg it
  have hpy : 0 ≤ pad_y it := by rw [pad_y_eq_pad_x]; exact hpx
  have hx1 : 0 ≤ crop_x_raw w d it N i := by
    simp only [crop_x_raw, bg_center_offset_x]
    omega
  have hx2 : crop_x_raw w d it N i ≤ bg_scaled_w w it - w := by
    simp only [crop_x_raw, bg_center_offset_x]
    omega
  have hy1 : 0 ≤ crop_y_raw h d it N i := by
    simp only [crop_y_raw, bg_center_offset_y]
    omega
  have hy2 : crop_y_raw h d it N i ≤ bg_scaled_h h it - h := by
    simp only [crop_y_raw, bg_center_offset_y]
    omega
  refine ⟨hx1, hx2, hy1, hy2, ?_, ?_⟩
  · rw [crop_x, min_eq_left hx2, max_eq_right hx1]
  · rw [crop_y, min_eq_left hy2, max_eq_right hy1]

theorem one_le_current_zoom (z : Zoom) (it : Intensity) (N i : ℕ) :
    1 ≤ current_zoom z it N i := by
  have he0 := eased_nonneg N i
  have he1 := eased_le_one N i
  have hA := zoom_amount_nonneg it
  cases z <;> simp only [current_zoom, zoom_start, zoom_end] <;> nlinarith

/-- C10: every emitted frame has exactly the even-rounded output dimensions,
for every zoom/intensity setting and frame index; the zoom scale never drops
below 1.0, so the recrop box after the zoom rescale stays within the rescaled
image. -/
theorem C10_frame_dims (ow oh : ℕ) (z : Zoom) (it : Intensity) (N i : ℕ) :
    frameDims ow oh z it N i = ((evenDim ow : ℤ), (evenDim oh : ℤ)) ∧
    1 ≤ current_zoom z it N i ∧
    0 ≤ zoom_crop_left (evenDim ow) (current_zoom z it N i) ∧
    zoom_crop_left (evenDim ow) (current_zoom z it N i) + (evenDim ow : ℤ) ≤
      zoomed_w (evenDim ow) (current_zoom z it N i) ∧
    0 ≤ zoom_crop_top (evenDim oh) (current_zoom z it N i) ∧
    zoom_crop_top (evenDim oh) (current_zoom z it N i) + (evenDim oh : ℤ) ≤
      zoomed_h (evenDim oh) (current_zoom z it N i) ∧
    evenDim ow % 2 = 0 ∧ evenDim ow ≤ ow ∧ ow ≤ evenDim ow + 1 ∧
    evenDim oh % 2 = 0 ∧ evenDim oh ≤ oh ∧ oh ≤ evenDim oh + 1 := by
  have hz : 1 ≤ current_zoom z it N i := one_le_current_zoom z it N i
  have hzww : ((evenDim ow : ℕ) : ℤ) ≤ zoomed_w (evenDim ow) (current_zoom z it N i) := by
    rw [zoomed_w, pyInt_of_nonneg (by positivity)]
    apply Int.le_floor.mpr
    push_cast
    nlinarith [Nat.cast_nonneg (α := ℝ) (evenDim ow)]
  have hzhh : ((evenDim oh : ℕ) : ℤ) ≤ zoomed_h (evenDim oh) (current_zoom z it N i) := by
    rw [zoomed_h, pyInt_of_nonneg (by positivity)]
    apply Int.le_floor.mpr
    push_cast
    nlinarith [Nat.cast_nonneg (α := ℝ) (evenDim oh)]
  refine ⟨?_, hz, ?_, ?_, ?_, ?_, ?_, ?_, ?_, ?_, ?_, ?_⟩
  · rw [frameDims]
    split
    · rfl
    · simp only [Prod.mk.injEq]
      constructor <;> ring
  · simp only [zoom_crop_left]
    omega
  · simp only [zoom_crop_left]
    omega
  · simp only [zoom_crop_top]
    omega
  · simp only [zoom_crop_top]
    omega
  · simp only [evenDim]
    omega
  · simp only [evenDim]
    omega
  · simp only [evenDim]
    omega
  · simp only [evenDim]
    omega
  · simp only [evenDim]
    omega
  · simp only [evenDim]
    omega

/- ---------------------------------------------------------------- -/
/- Claim C1: process entry point.                                    -/
/- ---------------------------------------------------------------- -/

/-- C1 counterexample: invoked with an input path, an output path and a third
argument that is not valid JSON, the process exits non-zero but emits NO JSON
line at all — `json.loads` runs before the try/except, so the decode error is
an uncaught exception rather than the claimed single
"success": false JSON failure line. -/
theorem C1_counterexample :
    stdoutJsonLine (mainRun cliBadJson cliBadLoads cliGenOk) = none ∧
    exitCode (mainRun cliBadJson cliBadLoads cliGenOk) = 1 := by
  constructor <;> rfl

/-- C1 (amended): with an input path, an output path and a third argument on
which JSON decoding fails, the process exits with a non-zero code, but the
decode error escapes as an uncaught exception: no JSON line is emitted on
stdout (the structured failure line is produced only for errors raised inside
generate_parallax_video). -/
theorem C1_amended_uncaught {α : Type} (argv : List String)
    (jsonLoads : String → Except String α) (gen : Option α → Except String String)
    (s e : String) (hlen : 3 ≤ argv.length) (h3 : argv[3]? = some s)
    (hs : jsonLoads s = .error e) :
    mainRun argv jsonLoads gen = .uncaught e ∧
    exitCode (mainRun argv jsonLoads gen) = 1 ∧
    stdoutJsonLine (mainRun argv jsonLoads gen) = none := by
  have hiflen : ¬ (argv.length < 3) := not_lt.mpr hlen
  have hrun : mainRun argv jsonLoads gen = .uncaught e := by
    simp only [mainRun, if_neg hiflen, h3, hs]
  exact ⟨hrun, by rw [hrun]; rfl, by rw [hrun]; rfl⟩

/-- Witness for C1's amended theorem on the concrete bad command line. -/
theorem C1_witness :
    mainRun cliBadJson cliBadLoads cliGenOk =
      MainOutcome.uncaught "Expecting value: line 1 column 1 (char 0)" ∧
    exitCode (mainRun cliBadJson cliBadLoads cliGenOk) = 1 ∧
    stdoutJsonLine (mainRun cliBadJson cliBadLoads cliGenOk) = none :=
  C1_amended_uncaught cliBadJson cliBadLoads cliGenOk "not json"
    "Expecting value: line 1 column 1 (char 0)" (by decide) rfl rfl

/- ---------------------------------------------------------------- -/
/- Claim C7: mask dilation.                                          -/
/- ---------------------------------------------------------------- -/

/-- One `cv2.dilate` pass with the all-ones `np.ones((7, 7))` kernel: each
output pixel is the maximum of the input over the 7×7 window centered at it
(neighbours outside the image do not contribute to the maximum). -/
def dilate7 (h w : ℕ) (m : Fin h → Fin w → ℕ) : Fin h → Fin w → ℕ :=
  fun y x =>
    Finset.sup (Finset.univ.filter fun p : Fin h × Fin w =>
        |((p.1 : ℕ) : ℤ) - ((y : ℕ) : ℤ)| ≤ 3 ∧ |((p.2 : ℕ) : ℤ) - ((x : ℕ) : ℤ)| ≤ 3)
      (fun p => m p.1 p.2)

/-- `cv2.dilate(inpaint_mask, kernel, iterations=n)`: n passes of dilate7. -/
def dilateIter (h w : ℕ) (m : Fin h → Fin w → ℕ) : ℕ → Fin h → Fin w → ℕ
  | 0 => m
  | n + 1 => dilate7 h w (dilateIter h w m n)

theorem le_dilate7 (h w : ℕ) (m : Fin h → Fin w → ℕ) (y : Fin h) (x : Fin w) :
    m y x ≤ dilate7 h w m y x := by
  apply Finset.le_sup (f := fun p : Fin h × Fin w => m p.1 p.2) (b := (y, x))
  simp

theorem le_dilateIter (h w : ℕ) (m : Fin h → Fin w → ℕ) (n : ℕ) (y : Fin h) (x : Fin w) :
    m y x ≤ dilateIter h w m n y x := by
  induction n with
  | zero => exact le_rfl
  | succ k ih => exact le_trans ih (le_dilate7 h w (dilateIter h w m k) y x)

/-- C7: the inpainting mask after morphological dilation (7×7 all-ones kernel,
4 iterations) is pixel-wise ≥ the pre-dilation binary mask: every pixel set in
the hard mask is also set in the dilated mask. -/
theorem C7_dilation_superset (h w : ℕ) (m : Fin h → Fin w → ℕ) (y : Fin h) (x : Fin w) :
    m y x ≤ dilateIter h w m 4 y x :=
  le_dilateIter h w m 4 y x

/- ---------------------------------------------------------------- -/
/- Claim C3: depth normalization (estimate_depth).                   -/
/- ---------------------------------------------------------------- -/

/-- numpy `arr.min()` over the (flattened, nonempty) raw depth array. -/
noncomputable def arrMin : List ℝ → ℝ
  | [] => 0
  | x :: xs => xs.foldl min x

/-- numpy `arr.max()` over the (flattened, nonempty) raw depth array. -/
noncomputable def arrMax : List ℝ → ℝ
  | [] => 0
  | x :: xs => xs.foldl max x

/-- `depth_map = (depth_map - depth_map.min()) / (depth_map.max() - depth_map.min() + 1e-8)` -/
noncomputable def normalizeDepth (l : List ℝ) : List ℝ :=
  l.map (fun v => (v - arrMin l) / (arrMax l - arrMin l + 1e-8))

theorem foldl_min_le_init (l : List ℝ) (a : ℝ) : l.foldl min a ≤ a := by
  induction l generalizing a with
  | nil => exact le_rfl
  | cons x xs ih =>
    calc (x :: xs).foldl min a = xs.foldl min (min a x) := rfl
      _ ≤ min a x := ih _
      _ ≤ a := min_le_left _ _

theorem foldl_min_le_mem {l : List ℝ} {x : ℝ} (a : ℝ) (hx : x ∈ l) :
    l.foldl min a ≤ x := by
  induction l generalizing a with
  | nil => cases hx
  | cons y ys ih =>
    rcases List.mem_cons.mp hx with rfl | hx'
    · calc (x :: ys).foldl min a = ys.foldl min (min a x) := rfl
        _ ≤ min a x := foldl_min_le_init _ _
        _ ≤ x := min_le_right _ _
    · calc (y :: ys).foldl min a = ys.foldl min (min a y) := rfl
        _ ≤ x := ih _ hx'

theorem foldl_min_mem (l : List ℝ) (a : ℝ) :
    l.foldl min a = a ∨ l.foldl min a ∈ l := by
  induction l generalizing a with
  | nil => exact Or.inl rfl
  | cons x xs ih =>
    have hstep : (x :: xs).foldl min a = xs.foldl min (min a x) := rfl
    rcases ih (min a x) with h | h
    · rcases min_choice a x with h2 | h2
      · exact Or.inl (by rw [hstep, h, h2])
      · exact Or.inr (by rw [hstep, h, h2]; exact List.mem_cons_self _ _)
    · exact Or.inr (by rw [hstep]; exact List.mem_cons_of_mem _ h)

theorem le_foldl_min {l : List ℝ} {a c : ℝ} (ha : c ≤ a) (h : ∀ x ∈ l, c ≤ x) :
    c ≤ l.foldl min a := by
  induction l generalizing a with
  | nil => exact ha
  | cons x xs ih =>
    exact ih (le_min ha (h x (List.mem_cons_self _ _)))
      (fun y hy => h y (List.mem_cons_of_mem _ hy))

theorem init_le_foldl_max (l : List ℝ) (a : ℝ) : a ≤ l.foldl max a := by
  induction l generalizing a with
  | nil => exact le_rfl
  | cons x xs ih =>
    calc a ≤ max a x := le_max_left _ _
      _ ≤ xs.foldl max (max a x) := ih _
      _ = (x :: xs).foldl max a := rfl

theorem mem_le_foldl_max {l : List ℝ} {x : ℝ} (a : ℝ) (hx : x ∈ l) :
    x ≤ l.foldl max a := by
  induction l generalizing a with
  | nil => cases hx
  | cons y ys ih =>
    rcases List.mem_cons.mp hx with rfl | hx'
    · calc x ≤ max a x := le_max_right _ _
        _ ≤ ys.foldl max (max a x) := init_le_foldl_max _ _
        _ = (x :: ys).foldl max a := rfl
    · calc x ≤ ys.foldl max (max a y) := ih _ hx'
        _ = (y :: ys).foldl max a := rfl

theorem foldl_max_mem (l : List ℝ) (a : ℝ) :
    l.foldl max a = a ∨ l.foldl max a ∈ l := by
  induction l generalizing a with
  | nil => exact Or.inl rfl
  | cons x xs ih =>
    have hstep : (x :: xs).foldl max a = xs.foldl max (max a x) := rfl
    rcases ih (max a x) with h | h
    · rcases max_choice a x with h2 | h2
      · exact Or.inl (by rw [hstep, h, h2])
      · exact Or.inr (by rw [hstep, h, h2]; exact List.mem_cons_self _ _)
    · exact Or.inr (by rw [hstep]; exact List.mem_cons_of_mem _ h)

theorem foldl_max_le {l : List ℝ} {a c : ℝ} (ha : a ≤ c) (h : ∀ x ∈ l, x ≤ c) :
    l.foldl max a ≤ c := by
  induction l generalizing a with
  | nil => exact ha
  | cons x xs ih =>
    exact ih (max_le ha (h x (List.mem_cons_self _ _)))
      (fun y hy => h y (List.mem_cons_of_mem _ hy))

theorem arrMin_mem {l : List ℝ} (h : l ≠ []) : arrMin l ∈ l := by
  cases l with
  | nil => exact absurd rfl h
  | cons x xs =>
    rcases foldl_min_mem xs x with h' | h'
    · rw [arrMin, h']
      exact List.mem_cons_self _ _
    · rw [arrMin]
      exact List.mem_cons_of_mem _ h'

theorem arrMin_le {l : List ℝ} {x : ℝ} (hx : x ∈ l) : arrMin l ≤ x := by
  cases l with
  | nil => cases hx
  | cons y ys =>
    rcases List.mem_cons.mp hx with rfl | hx'
    · rw [arrMin]
      exact foldl_min_le_init _ _
    · rw [arrMin]
      exact foldl_min_le_mem _ hx'

theorem le_arrMin {l : List ℝ} {c : ℝ} (h : l ≠ []) (hc : ∀ x ∈ l, c ≤ x) :
    c ≤ arrMin l := by
  cases l with
  | nil => exact absurd rfl h
  | cons y ys =>
    rw [arrMin]
    exact le_foldl_min (hc y (List.mem_cons_self _ _))
      (fun x hx => hc x (List.mem_cons_of_mem _ hx))

theorem arrMax_mem {l : List ℝ} (h : l ≠ []) : arrMax l ∈ l := by
  cases l with
  | nil => exact absurd rfl h
  | cons x xs =>
    rcases foldl_max_mem xs x with h' | h'
    · rw [arrMax, h']
      exact List.mem_cons_self _ _
    · rw [arrMax]
      exact List.mem_cons_of_mem _ h'

theorem le_arrMax {l : List ℝ} {x : ℝ} (hx : x ∈ l) : x ≤ arrMax l := by
  cases l with
  | nil => cases hx
  | cons y ys =>
    rcases List.mem_cons.mp hx with rfl | hx'
    · rw [arrMax]
      exact init_le_foldl_max _ _
    · rw [arrMax]
      exact mem_le_foldl_max _ hx'

theorem arrMax_le {l : List ℝ} {c : ℝ} (h : l ≠ []) (hc : ∀ x ∈ l, x ≤ c) :
    arrMax l ≤ c := by
  cases l with
  | nil => exact absurd rfl h
  | cons y ys =>
    rw [arrMax]
    exact foldl_max_le (hc y (List.mem_cons_self _ _))
      (fun x hx => hc x (List.mem_cons_of_mem _ hx))

theorem arrMin_le_arrMax {l : List ℝ} (h : l ≠ []) : arrMin l ≤ arrMax l :=
  le_trans (arrMin_le (arrMax_mem h)) le_rfl

/-- C3 counterexample: the two-sample raw depth map [0, 1e-8] is not constant,
yet the maximum of its normalized form is (1e-8)/(1e-8 + 1e-8) = 1/2, nowhere
near 1.0: with a raw range comparable to the 1e-8 epsilon the "max = 1.0
within floating epsilon" part of the claim fails. -/
theorem C3_counterexample :
    arrMin [(0 : ℝ), 1e-8] ≠ arrMax [(0 : ℝ), 1e-8] ∧
    arrMax (normalizeDepth [(0 : ℝ), 1e-8]) = 1 / 2 ∧
    ¬ |arrMax (normalizeDepth [(0 : ℝ), 1e-8]) - 1| ≤ 1e-3 := by
  have hmin : arrMin [(0 : ℝ), 1e-8] = 0 := by
    rw [show ([(0 : ℝ), 1e-8]) = 0 :: [1e-8] from rfl, arrMin]
    norm_num [min_def]
  have hmax : arrMax [(0 : ℝ), 1e-8] = 1e-8 := by
    rw [show ([(0 : ℝ), 1e-8]) = 0 :: [1e-8] from rfl, arrMax]
    norm_num [max_def]
  have hnorm : normalizeDepth [(0 : ℝ), 1e-8] = [0, 1 / 2] := by
    rw [normalizeDepth, hmin, hmax]
    norm_num
  have hmax2 : arrMax (normalizeDepth [(0 : ℝ), 1e-8]) = 1 / 2 := by
    rw [hnorm, show ([(0 : ℝ), 1 / 2]) = 0 :: [1 / 2] from rfl, arrMax]
    norm_num [max_def]
  refine ⟨by rw [hmin, hmax]; norm_num, hmax2, ?_⟩
  rw [hmax2, show |(1 : ℝ) / 2 - 1| = 1 / 2 by rw [abs_sub_comm, abs_of_nonneg] <;> norm_num]
  norm_num

/-- C3 (amended): for every nonempty raw depth map, the denominator
max - min + 1e-8 is strictly positive (no division by zero), the normalized
minimum is exactly 0; a constant map normalizes to the all-zero map; and the
normalized maximum equals (max-min)/(max-min+1e-8), which is within 1e-6 of
1.0 whenever the raw range is at least 1e-2 (but not for ranges comparable to
the 1e-8 epsilon). -/
theorem C3_amended_normalization (l : List ℝ) (hne : l ≠ []) :
    0 < arrMax l - arrMin l + 1e-8 ∧
    arrMin (normalizeDepth l) = 0 ∧
    ((∀ x ∈ l, ∀ y ∈ l, x = y) → ∀ y ∈ normalizeDepth l, y = 0) ∧
    (1e-2 ≤ arrMax l - arrMin l → |arrMax (normalizeDepth l) - 1| ≤ 1e-6) := by
  have hr : 0 ≤ arrMax l - arrMin l := sub_nonneg.mpr (arrMin_le_arrMax hne)
  have hden : 0 < arrMax l - arrMin l + 1e-8 := by norm_num; linarith
  have hnn : ∀ y ∈ normalizeDepth l, 0 ≤ y := by
    intro y hy
    rcases List.mem_map.mp hy with ⟨v, hv, rfl⟩
    exact div_nonneg (sub_nonneg.mpr (arrMin_le hv)) hden.le
  have hzmem : (0 : ℝ) ∈ normalizeDepth l := by
    have : (arrMin l - arrMin l) / (arrMax l - arrMin l + 1e-8) = 0 := by
      rw [sub_self, zero_div]
    rw [← this]
    exact List.mem_map.mpr ⟨arrMin l, arrMin_mem hne, rfl⟩
  have hnemap : normalizeDepth l ≠ [] := by
    intro hc
    rw [hc] at hzmem
    cases hzmem
  refine ⟨hden, ?_, ?_, ?_⟩
  · exact le_antisymm (arrMin_le hzmem) (le_arrMin hnemap hnn)
  · intro hconst y hy
    rcases List.mem_map.mp hy with ⟨v, hv, rfl⟩
    rw [hconst v hv (arrMin l) (arrMin_mem hne), sub_self, zero_div]
  · intro hrange
    have hfmax : arrMax (normalizeDepth l) =
        (arrMax l - arrMin l) / (arrMax l - arrMin l + 1e-8) := by
      apply le_antisymm
      · apply arrMax_le hnemap
        intro y hy
        rcases List.mem_map.mp hy with ⟨v, hv, rfl⟩
        exact div_le_div_of_nonneg_right (sub_le_sub_right (le_arrMax hv) _) hden.le
      · apply le_arrMax
        exact List.mem_map.mpr ⟨arrMax l, arrMax_mem hne, rfl⟩
    rw [hfmax]
    have h1 : (arrMax l - arrMin l) / (arrMax l - arrMin l + 1e-8) - 1 =
        -(1e-8) / (arrMax l - arrMin l + 1e-8) := by
      field_simp
    rw [h1, abs_div, abs_neg, abs_of_pos hden,
      abs_of_pos (show (0 : ℝ) < 1e-8 by norm_num)]
    rw [div_le_iff₀ hden]
    nlinarith

/-- Witness for C3's amended theorem on the nonempty raw map [0, 1]. -/
theorem C3_witness :
    0 < arrMax [(0 : ℝ), 1] - arrMin [(0 : ℝ), 1] + 1e-8 ∧
    arrMin (normalizeDepth [(0 : ℝ), 1]) = 0 ∧
    ((∀ x ∈ [(0 : ℝ), 1], ∀ y ∈ [(0 : ℝ), 1], x = y) →
      ∀ y ∈ normalizeDepth [(0 : ℝ), 1], y = 0) ∧
    (1e-2 ≤ arrMax [(0 : ℝ), 1] - arrMin [(0 : ℝ), 1] →
      |arrMax (normalizeDepth [(0 : ℝ), 1]) - 1| ≤ 1e-6) :=
  C3_amended_normalization [(0 : ℝ), 1] (by simp)

/- ---------------------------------------------------------------- -/
/- Claim C9: create_layer_masks partition.                           -/
/- ---------------------------------------------------------------- -/

/-- `thresholds = np.linspace(0, 1, num_layers + 1)`: the k-th threshold is
k / num_layers. -/
noncomputable def thresholds (n k : ℕ) : ℝ := (k : ℝ) / (n : ℝ)

/-- Pixel membership in layer i of create_layer_masks: depth in
[thresholds i, thresholds (i+1)), closed at the top for the last layer
(`depth_map <= high` when `i == num_layers - 1`, `< high` otherwise). -/
def layerMask (n i : ℕ) (d : ℝ) : Prop :=
  if i = n - 1 then thresholds n i ≤ d ∧ d ≤ thresholds n (i + 1)
  else thresholds n i ≤ d ∧ d < thresholds n (i + 1)

theorem thresholds_mono {n a b : ℕ} (hn : 1 ≤ n) (hab : a ≤ b) :
    thresholds n a ≤ thresholds n b := by
  have hnpos : (0 : ℝ) < (n : ℝ) := by exact_mod_cast hn
  rw [thresholds, thresholds]
  apply div_le_div_of_nonneg_right _ hnpos.le
  exact_mod_cast hab

theorem layerMask_low {n i : ℕ} {d : ℝ} (h : layerMask n i d) : thresholds n i ≤ d := by
  rw [layerMask] at h
  split at h <;> exact h.1

theorem layerMask_disjoint {n a b : ℕ} {d : ℝ} (hn : 1 ≤ n) (hab : a < b) (hb : b < n)
    (ha : layerMask n a d) (hb' : layerMask n b d) : False := by
  have hna : a ≠ n - 1 := by omega
  rw [layerMask, if_neg hna] at ha
  have h2 : d < thresholds n (a + 1) := ha.2
  have h3 : thresholds n b ≤ d := layerMask_low hb'
  have hmono : thresholds n (a + 1) ≤ thresholds n b := thresholds_mono hn (by omega)
  linarith

/-- C9: for a depth value in [0,1] and n ≥ 1 layers, the layer masks of
create_layer_masks form a partition: the pixel lies in exactly one layer. -/
theorem C9_layer_masks_partition (n : ℕ) (hn : 1 ≤ n) (d : ℝ) (h0 : 0 ≤ d) (h1 : d ≤ 1) :
    ∃! i : Fin n, layerMask n (i : ℕ) d := by
  have hnpos : (0 : ℝ) < (n : ℝ) := by exact_mod_cast hn
  have hdn : 0 ≤ d * (n : ℝ) := by positivity
  have hk1 : ((⌊d * (n : ℝ)⌋₊ : ℕ) : ℝ) ≤ d * (n : ℝ) := Nat.floor_le hdn
  have hk2 : d * (n : ℝ) < (⌊d * (n : ℝ)⌋₊ : ℕ) + 1 := Nat.lt_floor_add_one _
  by_cases hkn : ⌊d * (n : ℝ)⌋₊ < n
  · -- the generic case: the pixel lands in layer ⌊d·n⌋
    refine ⟨⟨⌊d * (n : ℝ)⌋₊, hkn⟩, ?_, ?_⟩
    · have hlow : thresholds n ⌊d * (n : ℝ)⌋₊ ≤ d := by
        rw [thresholds, div_le_iff₀ hnpos]
        exact hk1
      have hhigh : d < thresholds n (⌊d * (n : ℝ)⌋₊ + 1) := by
        rw [thresholds, lt_div_iff₀ hnpos]
        push_cast
        exact hk2
      simp only [layerMask]
      split
      · exact ⟨hlow, hhigh.le⟩
      · exact ⟨hlow, hhigh⟩
    · intro j hj
      apply Fin.ext
      rcases lt_trichotomy (j : ℕ) ⌊d * (n : ℝ)⌋₊ with hlt | heq | hgt
      · exfalso
        apply layerMask_disjoint hn hlt hkn hj
        have hlow : thresholds n ⌊d * (n : ℝ)⌋₊ ≤ d := by
          rw [thresholds, div_le_iff₀ hnpos]
          exact hk1
        have hhigh : d < thresholds n (⌊d * (n : ℝ)⌋₊ + 1) := by
          rw [thresholds, lt_div_iff₀ hnpos]
          push_cast
          exact hk2
        simp only [layerMask]
        split
        · exact ⟨hlow, hhigh.le⟩
        · exact ⟨hlow, hhigh⟩
      · exact heq
      · exfalso
        have hlow : thresholds n ⌊d * (n : ℝ)⌋₊ ≤ d := by
          rw [thresholds, div_le_iff₀ hnpos]
          exact hk1
        have hhigh : d < thresholds n (⌊d * (n : ℝ)⌋₊ + 1) := by
          rw [thresholds, lt_div_iff₀ hnpos]
          push_cast
          exact hk2
        apply layerMask_disjoint hn hgt j.isLt (by
          simp only [layerMask]
          split
          · exact ⟨hlow, hhigh.le⟩
          · exact ⟨hlow, hhigh⟩) hj
  · -- degenerate top case: d·n ≥ n forces d = 1, which lands in the last layer
    have hd1 : d = 1 := by
      have : (n : ℝ) ≤ ((⌊d * (n : ℝ)⌋₊ : ℕ) : ℝ) := by exact_mod_cast not_lt.mp hkn
      have hge : 1 ≤ d := by
        by_contra hcon
        push_neg at hcon
        have : d * (n : ℝ) < 1 * (n : ℝ) := by nlinarith
        nlinarith
      linarith
    have hmask : layerMask n (n - 1) d := by
      rw [layerMask, if_pos rfl]
      constructor
      · rw [thresholds, div_le_iff₀ hnpos, hd1, one_mul]
        exact_mod_cast Nat.sub_le n 1
      · rw [thresholds, hd1]
        rw [show (n - 1 + 1 : ℕ) = n by omega]
        rw [div_self hnpos.ne']
    refine ⟨⟨n - 1, by omega⟩, hmask, ?_⟩
    intro j hj
    apply Fin.ext
    rcases lt_trichotomy (j : ℕ) (n - 1) with hlt | heq | hgt
    · exact absurd (layerMask_disjoint hn hlt (by omega) hj hmask) not_false
    · exact heq
    · exact absurd hgt (by omega)

/-- Witness for C9 at n = 3 layers and depth value 1/2. -/
theorem C9_witness : ∃! i : Fin 3, layerMask 3 (i : ℕ) ((1 : ℝ) / 2) :=
  C9_layer_masks_partition 3 (by norm_num) ((1 : ℝ) / 2) (by norm_num) (by norm_num)

end DepthParallax
